import Mathlib

/-!
Verification of the EMatrix Obsidian plugin core (src/main.ts):
the task extractor `extractTasksFromContent` and the classifier/renderer
`createEisenhowerMatrixContent`, embedded shallowly over `List Char`.
-/

set_option maxRecDepth 1000000

namespace EMatrix

/-- Strings are modelled as lists of characters. -/
abbrev Str := List Char

/-- Coerce a Lean string literal to the `List Char` model. -/
def ofString (s : String) : Str := s.data

/-- The character set of the JS regex class `\s` (ECMAScript `WhiteSpace`
plus `LineTerminator`): tab, line feed, vertical tab, form feed, carriage
return, space, no-break space, Ogham space mark, the U+2000 to U+200A
spaces, line separator, paragraph separator, narrow no-break space, medium
mathematical space, ideographic space, zero-width no-break space. -/
def wsChars : List Char :=
  ['\t', '\n', '\x0b', '\x0c', '\r', ' ', '\u00A0', '\u1680',
   '\u2000', '\u2001', '\u2002', '\u2003', '\u2004', '\u2005', '\u2006',
   '\u2007', '\u2008', '\u2009', '\u200A', '\u2028', '\u2029', '\u202F',
   '\u205F', '\u3000', '\uFEFF']

/-- JS regex `\s`. -/
def isWsChar (c : Char) : Bool := wsChars.contains c

/-- ECMAScript `LineTerminator` characters (LF, CR, LS, PS): the regex `.`
never matches these. -/
def isLineTerm (c : Char) : Bool :=
  c = '\n' || c = '\r' || c = '\u2028' || c = '\u2029'

/-- JS regex `\w`: ASCII letters, digits, underscore. -/
def isWordChar (c : Char) : Bool :=
  (('a' ≤ c && c ≤ 'z') || ('A' ≤ c && c ≤ 'Z') || ('0' ≤ c && c ≤ '9') || c = '_')

/-- Character class `[a-zA-Z0-9_-]` of the tag-stripping regex in
`createEisenhowerMatrixContent` (`/#[a-zA-Z0-9_-]+\b/g`). -/
def isTagChar (c : Char) : Bool := isWordChar c || c = '-'

/-- ASCII lower-casing, the case folding performed by the `/i` regex flag
on the ASCII patterns `#urgent`, `#important`, `#later`. -/
def lowerChar (c : Char) : Char :=
  if 'A' ≤ c && c ≤ 'Z' then Char.ofNat (c.toNat + 32) else c

/-- JS `String.prototype.trim`, left part. -/
def trimLeft (s : Str) : Str := s.dropWhile isWsChar

/-- JS `String.prototype.trim`, right part. -/
def trimRight (s : Str) : Str := (s.reverse.dropWhile isWsChar).reverse

/-- JS `String.prototype.trim`. -/
def trim (s : Str) : Str := trimRight (trimLeft s)

/-- JS `content.split('\n')`: split into lines at every newline
(an empty string yields the single empty line, as in JS). -/
def splitLines : Str → List Str
  | [] => [[]]
  | c :: cs =>
    if c = '\n' then [] :: splitLines cs
    else
      match splitLines cs with
      | l :: ls => (c :: l) :: ls
      | [] => [[c]]

/-- The checklist-item regex `/^(\s*)- \[([ x])\] (.+)$/` of
`extractTasksFromContent` (src/main.ts:404): returns
(indentation width, isCompleted, raw content group) when the line matches.
`(.+)$` requires a nonempty content group free of line terminators, since
the JS `.` never matches a line terminator and `$` (no `m` flag) asserts
the very end of the string, so the group must cover the whole rest. -/
def parseTask (line : Str) : Option (Nat × Bool × Str) :=
  let ws := line.takeWhile isWsChar
  match line.dropWhile isWsChar with
  | '-' :: ' ' :: '[' :: c :: ']' :: ' ' :: content =>
    if (c = ' ' || c = 'x') && !content.isEmpty
        && content.all (fun d => !isLineTerm d) then
      some (ws.length, c = 'x', content)
    else none
  | _ => none

/-- The generic list-marker regex `/^\s*- /` (src/main.ts:435). -/
def isGenericListLine (line : Str) : Bool :=
  match line.dropWhile isWsChar with
  | '-' :: ' ' :: _ => true
  | _ => false

/-- One iteration of the line loop of `extractTasksFromContent`
(src/main.ts:400-445): given the current `inList` flag and the line,
returns the new `inList` flag and the task emitted by this line (if any). -/
def extractStep (inList : Bool) (line : Str) : Bool × Option Str :=
  match parseTask line with
  | some (indentation, isCompleted, taskContent) =>
    if isCompleted then (inList, none)
    else if indentation = 0 then (true, some (trim taskContent))
    else if !inList then (true, some (trim taskContent))
    else (inList, none)
  | none =>
    if isGenericListLine line then (true, none) else (false, none)

/-- The full line loop: tasks emitted over a list of lines,
threading the `inList` flag. -/
def extractLoop : Bool → List Str → List Str
  | _, [] => []
  | b, l :: ls =>
    match extractStep b l with
    | (b2, some t) => t :: extractLoop b2 ls
    | (b2, none) => extractLoop b2 ls

/-- The `inList` flag after scanning a list of lines. -/
def extractState (b : Bool) (ls : List Str) : Bool :=
  ls.foldl (fun s l => (extractStep s l).1) b

/-- `extractTasksFromContent` (src/main.ts:388-452): split into lines and
run the loop with `inList = false`. -/
def extractTasksFromContent (content : Str) : List Str :=
  extractLoop false (splitLines content)

/-- Drop a pattern from the front of a string, comparing characters
case-insensitively (ASCII); returns the remainder on success. -/
def dropPrefixCI : Str → Str → Option Str
  | [], s => some s
  | _ :: _, [] => none
  | p :: ps, c :: cs => if lowerChar c = lowerChar p then dropPrefixCI ps cs else none

/-- Does the string start with the tag pattern (case-insensitively) followed
by a word boundary?  All three tag patterns end in a word character, so the
JS `\b` there holds exactly when the next character is absent or non-word. -/
def hasTagAt (pat : Str) (s : Str) : Bool :=
  match dropPrefixCI pat s with
  | some [] => true
  | some (c :: _) => !isWordChar c
  | none => false

/-- JS `/#name\b/i.test(s)`: the anchored match succeeds at some position. -/
def testTag (pat : Str) (s : Str) : Bool :=
  s.tails.any (hasTagAt pat)

/-- `/#urgent\b/i.test(task)` (src/main.ts:474). -/
def hasUrgentTag (task : Str) : Bool := testTag (ofString "#urgent") task

/-- `/#important\b/i.test(task)` (src/main.ts:475). -/
def hasImportantTag (task : Str) : Bool := testTag (ofString "#important") task

/-- `/#later\b/i.test(task)` (src/main.ts:476). -/
def hasLaterTag (task : Str) : Bool := testTag (ofString "#later") task

/-- Remove trailing dash characters. -/
def dropTrailingDashes (l : Str) : Str :=
  (l.reverse.dropWhile (fun c => c = '-')).reverse

/-- JS `task.replace(/#[a-zA-Z0-9_-]+\b/g, '')` (src/main.ts:479).
At a `#` the regex engine greedily takes the maximal run of `[a-zA-Z0-9_-]`
characters and backtracks until `\b` holds; since every character after the
maximal run is a non-word character, this matches `#` followed by the run
with its trailing dashes removed, provided that part is nonempty, and
scanning resumes after the match. -/
def stripTagsGo : Nat → Str → Str
  | _, [] => []
  | 0, s => s
  | fuel + 1, c :: cs =>
    if c = '#' then
      let r := dropTrailingDashes (cs.takeWhile isTagChar)
      if r = [] then c :: stripTagsGo fuel cs
      else stripTagsGo fuel (cs.drop r.length)
    else c :: stripTagsGo fuel cs

/-- The replacement scan, started with enough fuel to finish (the fuel is
structural recursion bookkeeping only: each step consumes at least one
character, see `stripTagsGo_eq`). -/
def stripTags (s : Str) : Str := stripTagsGo s.length s

/-- The fuel is irrelevant as long as it covers the string length, so
`stripTags` satisfies the intended recurrence. -/
theorem stripTagsGo_eq :
    ∀ (f : Nat) (s : Str), s.length ≤ f → stripTagsGo f s = stripTags s := by
  intro f
  induction f using Nat.strong_induction_on with
  | _ f ih =>
    intro s hs
    match s with
    | [] =>
      cases f <;> rfl
    | c :: cs =>
      match f, hs with
      | f + 1, hs =>
        have h1 : cs.length ≤ f := by simpa using hs
        have e1 : stripTags (c :: cs) = stripTagsGo (cs.length + 1) (c :: cs) := rfl
        rw [e1]
        simp only [stripTagsGo]
        by_cases hc : c = '#'
        · simp only [hc, if_pos rfl]
          by_cases hr : dropTrailingDashes (cs.takeWhile isTagChar) = []
          · simp only [hr, if_pos rfl]
            rw [ih f (Nat.lt_succ_self f) cs h1,
                ih cs.length (Nat.lt_succ_of_le h1) cs (Nat.le_refl _)]
            simp
          · simp only [if_neg hr]
            have hdc : (cs.drop (dropTrailingDashes (cs.takeWhile isTagChar)).length).length
                ≤ cs.length := by
              simp [List.length_drop]
            rw [ih f (Nat.lt_succ_self f) _ (Nat.le_trans hdc h1),
                ih cs.length (Nat.lt_succ_of_le h1) _ hdc]
            simp
        · simp only [if_neg hc]
          rw [ih f (Nat.lt_succ_self f) cs h1,
              ih cs.length (Nat.lt_succ_of_le h1) cs (Nat.le_refl _)]

/-- Recurrence for `stripTags` at a non-`#` character. -/
theorem stripTags_cons_ne {c : Char} (cs : Str) (hc : c ≠ '#') :
    stripTags (c :: cs) = c :: stripTags cs := by
  show stripTagsGo (cs.length + 1) (c :: cs) = _
  simp only [stripTagsGo, if_neg hc]
  rw [stripTagsGo_eq cs.length cs (Nat.le_refl _)]

/-- Recurrence for `stripTags` at a `#`: if the maximal tag-character run
after it is all dashes (possibly empty), the `#` is kept; otherwise the
run minus its trailing dashes is removed together with the `#`. -/
theorem stripTags_cons_hash (cs : Str) :
    stripTags ('#' :: cs) =
      if dropTrailingDashes (cs.takeWhile isTagChar) = [] then '#' :: stripTags cs
      else stripTags (cs.drop (dropTrailingDashes (cs.takeWhile isTagChar)).length) := by
  show stripTagsGo (cs.length + 1) ('#' :: cs) = _
  simp only [stripTagsGo, if_pos rfl]
  by_cases hr : dropTrailingDashes (cs.takeWhile isTagChar) = []
  · simp only [hr, if_pos rfl]
    rw [stripTagsGo_eq cs.length cs (Nat.le_refl _)]
    simp
  · simp only [if_neg hr]
    have hdc : (cs.drop (dropTrailingDashes (cs.takeWhile isTagChar)).length).length
        ≤ cs.length := by
      simp [List.length_drop]
    rw [stripTagsGo_eq cs.length _ hdc]
    simp

/-- `let cleanTask = task.replace(/#[a-zA-Z0-9_-]+\b/g, '').trim()`. -/
def cleanTask (task : Str) : Str := trim (stripTags task)

/-- The five classification buckets, named after the arrays of
`createEisenhowerMatrixContent` (src/main.ts:459-463). -/
inductive Bucket
  | urgentImportant
  | notUrgentImportant
  | urgentNotImportant
  | notUrgentNotImportant
  | backlog
deriving DecidableEq, Repr

/-- The if/else-if cascade of `tasks.forEach` (src/main.ts:487-513):
which bucket receives the task. -/
def bucketOf (task : Str) : Bucket :=
  if hasUrgentTag task && hasImportantTag task then .urgentImportant
  else if hasImportantTag task then .notUrgentImportant
  else if hasUrgentTag task then .urgentNotImportant
  else if hasLaterTag task then .notUrgentNotImportant
  else .backlog

/-- The list pushed into bucket `b` by the `forEach` loop: the cleaned text
of the tasks classified into `b`, in input order.  Note the source pushes
`cleanTask` into every bucket, `backlog` included (src/main.ts:488-508). -/
def bucketList (b : Bucket) (tasks : List Str) : List Str :=
  (tasks.filter (fun t => bucketOf t = b)).map cleanTask

/-- `createTaskList` (src/main.ts:516-522). -/
def createTaskList (tasks : List Str) (emptyMessage : Str) : Str :=
  if tasks = [] then
    ofString "<p class=\"empty-message\">" ++ emptyMessage ++ ofString "</p>"
  else
    ofString "<ul>" ++
      (tasks.map (fun task => ofString "<li>- [ ] " ++ task ++ ofString "</li>")).flatten ++
      ofString "</ul>"

/-- JS `Array.prototype.join(sep)`. -/
def joinSep (sep : Str) : List Str → Str
  | [] => []
  | [x] => x
  | x :: y :: xs => x ++ sep ++ joinSep sep (y :: xs)

/-- `backlog.map(task => `- [ ] ${task}`).join('\n')` (src/main.ts:565). -/
def backlogSection (entries : List Str) : Str :=
  joinSep (ofString "\n") (entries.map (fun task => ofString "- [ ] " ++ task))

/-- `createEisenhowerMatrixContent` (src/main.ts:457-580): the returned
template literal with the five bucket lists spliced in.  The literal text
is written in chunks (whole lines, explicit newlines) whose concatenation
is byte-for-byte the source template. -/
def createEisenhowerMatrixContent (tasks : List Str) (title : Str) : Str :=
  ofString "# " ++ title ++ ofString " - Eisenhower Matrix" ++ ofString "\n" ++
  ofString "\n```eisenhower-matrix\n## Eisenhower Matrix\n```\n\n<div class=\"ematrix-container\">\n  <div class=\"ematrix-header\">\n    <div class=\"ematrix-header-empty\"></div>\n    <div class=\"ematrix-header-urgent\">Urgent</div>\n    <div class=\"ematrix-header-not-urgent\">Not Urgent</div>\n  </div>\n  \n  <div class=\"ematrix-row\">\n    <div class=\"ematrix-row-header\">Important</div>\n    <div class=\"ematrix-quadrant urgent-important\">\n      <h3>Do First</h3>" ++ ofString "\n" ++
  ofString "      " ++ createTaskList (bucketList .urgentImportant tasks) (ofString "No urgent and important tasks") ++ ofString "\n" ++
  ofString "    </div>\n    <div class=\"ematrix-quadrant not-urgent-important\">\n      <h3>Schedule</h3>" ++ ofString "\n" ++
  ofString "      " ++ createTaskList (bucketList .notUrgentImportant tasks) (ofString "No important tasks to schedule") ++ ofString "\n" ++
  ofString "    </div>\n  </div>\n  \n  <div class=\"ematrix-row\">\n    <div class=\"ematrix-row-header\">Not Important</div>\n    <div class=\"ematrix-quadrant urgent-not-important\">\n      <h3>Delegate</h3>" ++ ofString "\n" ++
  ofString "      " ++ createTaskList (bucketList .urgentNotImportant tasks) (ofString "No tasks to delegate") ++ ofString "\n" ++
  ofString "    </div>\n    <div class=\"ematrix-quadrant not-urgent-not-important\">\n      <h3>Eliminate</h3>" ++ ofString "\n" ++
  ofString "      " ++ createTaskList (bucketList .notUrgentNotImportant tasks) (ofString "No tasks to eliminate") ++ ofString "\n" ++
  ofString "    </div>\n  </div>\n</div>\n\n## Backlog" ++ ofString "\n" ++ ofString "\n" ++
  backlogSection (bucketList .backlog tasks) ++ ofString "\n" ++ ofString "\n" ++
  ofString "<div class=\"ematrix-instructions\">\n  <h3>Task Organization</h3>\n  <p>Use the following tags to organize tasks in the matrix:</p>\n  <ul>\n    <li><strong>#urgent #important</strong> - Do First quadrant</li>\n    <li><strong>#important</strong> - Schedule quadrant</li>\n    <li><strong>#urgent</strong> - Delegate quadrant</li>\n    <li><strong>#later</strong> - Eliminate quadrant</li>\n    <li>No tags - Tasks appear in Backlog</li>\n  </ul>\n</div>\n\n<!-- #ematrix -->"

/-- The fenced-code sentinel checked by `processFile`
(`content.includes('```eisenhower-matrix')`, src/main.ts:231). -/
def matrixFenceMarker : Str := ofString "```eisenhower-matrix"

/-- The structural wrapper sentinel checked by `processFile`
(`content.includes('<div class="ematrix-container">')`, src/main.ts:232). -/
def containerMarker : Str := ofString "<div class=\"ematrix-container\">"

/-- JS `s.includes(pat)`. -/
def includesStr (pat s : Str) : Bool :=
  s.tails.any (fun t => pat.isPrefixOf t)

/-- `isAlreadyProcessed` of `processFile` (src/main.ts:231-232). -/
def isAlreadyProcessed (content : Str) : Bool :=
  includesStr matrixFenceMarker content && includesStr containerMarker content

/-- Number of positions at which `pat` occurs as a substring. -/
def countOcc (pat s : Str) : Nat :=
  (s.tails.filter (fun t => pat.isPrefixOf t)).length

/-- The task text a line would contribute when it is an unchecked
checklist line (regardless of list context). -/
def lineTaskText (line : Str) : Option Str :=
  match parseTask line with
  | some (_, false, c) => some (trim c)
  | _ => none

section ExtractionLemmas

/-- A step that emits a task does so from an unchecked checklist line,
emitting the trimmed content group. -/
theorem extractStep_emit {b b2 : Bool} {line t : Str}
    (h : extractStep b line = (b2, some t)) :
    ∃ ind c, parseTask line = some (ind, false, c) ∧ t = trim c := by
  cases hp : parseTask line with
  | none =>
    simp only [extractStep, hp] at h
    split_ifs at h <;> simp_all
  | some v =>
    obtain ⟨ind, comp, c⟩ := v
    cases comp with
    | true => simp only [extractStep, hp] at h; simp at h
    | false =>
      refine ⟨ind, c, rfl, ?_⟩
      simp only [extractStep, hp] at h
      split_ifs at h <;> simp_all

/-- A completed (checked) checklist line leaves the state unchanged and
emits nothing. -/
theorem extractStep_completed {b : Bool} {line c : Str} {ind : Nat}
    (hp : parseTask line = some (ind, true, c)) :
    extractStep b line = (b, none) := by
  simp [extractStep, hp]

/-- An unchecked checklist line with zero indentation always emits. -/
theorem extractStep_zero {b : Bool} {line c : Str}
    (hp : parseTask line = some (0, false, c)) :
    extractStep b line = (true, some (trim c)) := by
  simp [extractStep, hp]

/-- An unchecked checklist line with positive indentation emits exactly
when `inList` is false, and sets `inList` to true in either case
(rejection does not reset it). -/
theorem extractStep_indented {b : Bool} {line c : Str} {ind : Nat}
    (hp : parseTask line = some (ind, false, c)) (hi : 0 < ind) :
    extractStep b line = (true, if b then none else some (trim c)) := by
  have hne : ¬ ind = 0 := by omega
  cases b <;> simp [extractStep, hp, hne]

/-- Every extracted task originates from some unchecked checklist line. -/
theorem extractLoop_mem :
    ∀ (ls : List Str) (b : Bool) (t : Str), t ∈ extractLoop b ls →
      ∃ line, line ∈ ls ∧ ∃ ind c, parseTask line = some (ind, false, c) ∧ t = trim c := by
  intro ls
  induction ls with
  | nil => intro b t ht; simp [extractLoop] at ht
  | cons l ls ih =>
    intro b t ht
    have hl : extractLoop b (l :: ls) =
        match extractStep b l with
        | (b2, some t0) => t0 :: extractLoop b2 ls
        | (b2, none) => extractLoop b2 ls := rfl
    cases hs : extractStep b l with
    | mk b2 o =>
      rw [hl, hs] at ht
      cases o with
      | some t0 =>
        rcases List.mem_cons.1 ht with rfl | hmem
        · obtain ⟨ind, c, hp, htc⟩ := extractStep_emit hs
          exact ⟨l, List.mem_cons_self l ls, ind, c, hp, htc⟩
        · obtain ⟨line, hmem2, rest⟩ := ih b2 t hmem
          exact ⟨line, List.mem_cons_of_mem l hmem2, rest⟩
      | none =>
        obtain ⟨line, hmem2, rest⟩ := ih b2 t ht
        exact ⟨line, List.mem_cons_of_mem l hmem2, rest⟩

/-- A zero-indentation unchecked checklist line is extracted whatever the
state of the scan. -/
theorem extractLoop_zero_mem :
    ∀ (ls : List Str) (b : Bool) (line c : Str), line ∈ ls →
      parseTask line = some (0, false, c) → trim c ∈ extractLoop b ls := by
  intro ls
  induction ls with
  | nil => intro b line c h; simp at h
  | cons l ls ih =>
    intro b line c hmem hp
    have hl : extractLoop b (l :: ls) =
        match extractStep b l with
        | (b2, some t0) => t0 :: extractLoop b2 ls
        | (b2, none) => extractLoop b2 ls := rfl
    rcases List.mem_cons.1 hmem with rfl | hmem2
    · rw [hl, extractStep_zero hp]
      exact List.mem_cons_self _ _
    · cases hs : extractStep b l with
      | mk b2 o =>
        rw [hl, hs]
        cases o with
        | some t0 => exact List.mem_cons_of_mem t0 (ih b2 line c hmem2 hp)
        | none => exact ih b2 line c hmem2 hp

/-- The emitted sequence is a sublist of the per-line task texts: tasks
come out in source order and no line contributes more than once. -/
theorem extractLoop_sublist :
    ∀ (ls : List Str) (b : Bool),
      List.Sublist (extractLoop b ls) (ls.filterMap lineTaskText) := by
  intro ls
  induction ls with
  | nil => intro b; simp [extractLoop]
  | cons l ls ih =>
    intro b
    have hl : extractLoop b (l :: ls) =
        match extractStep b l with
        | (b2, some t0) => t0 :: extractLoop b2 ls
        | (b2, none) => extractLoop b2 ls := rfl
    rw [List.filterMap_cons]
    cases hs : extractStep b l with
    | mk b2 o =>
      rw [hl, hs]
      cases o with
      | some t0 =>
        obtain ⟨ind, c, hp, rfl⟩ := extractStep_emit hs
        have hline : lineTaskText l = some (trim c) := by
          unfold lineTaskText; rw [hp]
        rw [hline]
        exact List.Sublist.cons₂ _ (ih b2)
      | none =>
        cases hline : lineTaskText l with
        | none => exact ih b2
        | some t1 => exact List.Sublist.cons t1 (ih b2)

end ExtractionLemmas

/-- C3: for every document, the task-extraction operation never returns a
task whose checkbox is checked: every returned task is the trimmed content
of a line that matches the checklist pattern with the unchecked state, so
checked lines never contribute. -/
theorem extract_never_returns_completed :
    ∀ (content t : Str), t ∈ extractTasksFromContent content →
      ∃ line, line ∈ splitLines content ∧
        ∃ ind c, parseTask line = some (ind, false, c) ∧ t = trim c := by
  intro content t ht
  exact extractLoop_mem (splitLines content) false t ht

/-- Witness for C3 at a concrete document containing a checked and an
unchecked task. -/
theorem extract_never_returns_completed_witness :
    (ofString "A") ∈ extractTasksFromContent (ofString "- [ ] A\n- [x] B") ∧
    ∃ line, line ∈ splitLines (ofString "- [ ] A\n- [x] B") ∧
      ∃ ind c, parseTask line = some (ind, false, c) ∧ (ofString "A") = trim c := by
  refine ⟨by decide, ?_⟩
  exact extract_never_returns_completed (ofString "- [ ] A\n- [x] B") (ofString "A") (by decide)

/-- C4: an indented unchecked checklist line is extracted exactly when the
`inList` flag is false at that line; when `inList` is true it is rejected
without resetting the flag, and `"- [ ] Parent\n  - [ ] Child"` yields
exactly `["Parent"]`. -/
theorem indented_extracted_iff_not_inList :
    (∀ (b : Bool) (line c : Str) (ind : Nat),
        parseTask line = some (ind, false, c) → 0 < ind →
        extractStep b line = (true, if b then none else some (trim c)))
    ∧ extractTasksFromContent (ofString "- [ ] Parent\n  - [ ] Child")
        = [ofString "Parent"] := by
  refine ⟨?_, by decide⟩
  intro b line c ind hp hi
  exact extractStep_indented hp hi

/-- Witness for C4 at a concrete indented line, in both list contexts. -/
theorem indented_extracted_iff_not_inList_witness :
    parseTask (ofString "  - [ ] X") = some (2, false, ofString "X") ∧
    extractStep true (ofString "  - [ ] X") = (true, none) ∧
    extractStep false (ofString "  - [ ] X") = (true, some (trim (ofString "X"))) :=
  ⟨by decide,
   indented_extracted_iff_not_inList.1 true (ofString "  - [ ] X") (ofString "X") 2
     (by decide) (by decide),
   indented_extracted_iff_not_inList.1 false (ofString "  - [ ] X") (ofString "X") 2
     (by decide) (by decide)⟩

/-- C5: every unchecked checklist line with zero indentation is extracted,
as its trimmed content with tags still embedded; the output is a sublist of
the per-line task texts (source order, no double emission); empty input
yields the empty sequence; and `"- [ ] Buy milk #urgent"` yields
`["Buy milk #urgent"]`. -/
theorem zero_indent_always_extracted :
    (∀ (content line c : Str), line ∈ splitLines content →
        parseTask line = some (0, false, c) →
        trim c ∈ extractTasksFromContent content)
    ∧ (∀ content : Str,
        List.Sublist (extractTasksFromContent content) ((splitLines content).filterMap lineTaskText))
    ∧ extractTasksFromContent (ofString "") = []
    ∧ extractTasksFromContent (ofString "- [ ] Buy milk #urgent")
        = [ofString "Buy milk #urgent"] := by
  refine ⟨?_, ?_, by decide, by decide⟩
  · intro content line c hmem hp
    exact extractLoop_zero_mem (splitLines content) false line c hmem hp
  · intro content
    exact extractLoop_sublist (splitLines content) false

/-- Witness for C5 at a concrete document. -/
theorem zero_indent_always_extracted_witness :
    trim (ofString "Buy milk #urgent") ∈
      extractTasksFromContent (ofString "x\n- [ ] Buy milk #urgent") :=
  zero_indent_always_extracted.1 (ofString "x\n- [ ] Buy milk #urgent")
    (ofString "- [ ] Buy milk #urgent") (ofString "Buy milk #urgent")
    (by decide) (by decide)

/-- C10: a checked checklist line never opens list context (the completed
branch changes no state), so in `"- [x] Parent\n  - [ ] Child"` the
indented unchecked child is extracted and the result is `["Child"]`. -/
theorem completed_line_keeps_state :
    (∀ (b : Bool) (line c : Str) (ind : Nat),
        parseTask line = some (ind, true, c) → extractStep b line = (b, none))
    ∧ extractTasksFromContent (ofString "- [x] Parent\n  - [ ] Child")
        = [ofString "Child"] := by
  refine ⟨?_, by decide⟩
  intro b line c ind hp
  exact extractStep_completed hp

/-- Witness for C10 at a concrete checked line, in both list contexts. -/
theorem completed_line_keeps_state_witness :
    parseTask (ofString "- [x] Done") = some (0, true, ofString "Done") ∧
    extractStep false (ofString "- [x] Done") = (false, none) ∧
    extractStep true (ofString "- [x] Done") = (true, none) :=
  ⟨by decide,
   completed_line_keeps_state.1 false (ofString "- [x] Done") (ofString "Done") 0 (by decide),
   completed_line_keeps_state.1 true (ofString "- [x] Done") (ofString "Done") 0 (by decide)⟩

section InfixLemmas

/-- An infix of `m` is an infix of `a ++ m`. -/
theorem infix_extend_left (a : Str) {x m : Str} (h : List.IsInfix x m) :
    List.IsInfix x (a ++ m) := by
  obtain ⟨s, t, hh⟩ := h
  exact ⟨a ++ s, t, by rw [← hh]; simp⟩

/-- An infix of `m` is an infix of `m ++ b`. -/
theorem infix_extend_right {x m : Str} (h : List.IsInfix x m) (b : Str) :
    List.IsInfix x (m ++ b) := by
  obtain ⟨s, t, hh⟩ := h
  exact ⟨s, t ++ b, by rw [← hh]; simp⟩

/-- Every element of a joined list is an infix of the join. -/
theorem mem_infix_joinSep (sep : Str) :
    ∀ (ls : List Str) (x : Str), x ∈ ls → List.IsInfix x (joinSep sep ls) := by
  intro ls
  induction ls with
  | nil => intro x hx; simp at hx
  | cons y ys ih =>
    intro x hx
    cases ys with
    | nil =>
      rw [List.mem_singleton] at hx
      subst hx
      exact List.infix_refl x
    | cons z zs =>
      rcases List.mem_cons.1 hx with rfl | hx2
      · exact ⟨[], sep ++ joinSep sep (z :: zs), by simp [joinSep]⟩
      · exact infix_extend_left (y ++ sep) (by simpa [joinSep] using ih x hx2)

end InfixLemmas

/-- C1 counterexample: for the input task `"E #foo"` (Backlog-classified,
since it carries none of the priority tags) the rendered block does not
contain the original text `"E #foo"` anywhere; its Backlog entry is the
tag-stripped `"E"`.  So Backlog entries are not kept verbatim: tag
stripping is applied to them exactly as to the quadrants. -/
theorem backlog_entry_not_verbatim :
    bucketOf (ofString "E #foo") = Bucket.backlog ∧
    bucketList Bucket.backlog [ofString "E #foo"] = [ofString "E"] ∧
    countOcc (ofString "E #foo")
      (createEisenhowerMatrixContent [ofString "E #foo"] (ofString "T")) = 0 ∧
    countOcc (ofString "- [ ] E")
      (createEisenhowerMatrixContent [ofString "E #foo"] (ofString "T")) = 1 := by
  decide

/-- C1 (amended): the Backlog section lists the tag-stripped trimmed text
of each Backlog-classified task (the same cleaning applied to quadrant
entries), rendered as an unchecked checklist line inside the block. -/
theorem backlog_shows_stripped_text :
    ∀ (tasks : List Str) (title t : Str), t ∈ tasks → bucketOf t = Bucket.backlog →
      List.IsInfix (ofString "- [ ] " ++ cleanTask t)
        (createEisenhowerMatrixContent tasks title) := by
  intro tasks title t ht hb
  have h1 : cleanTask t ∈ bucketList Bucket.backlog tasks :=
    List.mem_map_of_mem cleanTask (List.mem_filter.2 ⟨ht, by simp [hb]⟩)
  have h2 : (ofString "- [ ] " ++ cleanTask t) ∈
      (bucketList Bucket.backlog tasks).map (fun task => ofString "- [ ] " ++ task) :=
    List.mem_map_of_mem _ h1
  have h3 : List.IsInfix (ofString "- [ ] " ++ cleanTask t)
      (backlogSection (bucketList Bucket.backlog tasks)) :=
    mem_infix_joinSep (ofString "\n") _ _ h2
  unfold createEisenhowerMatrixContent
  exact infix_extend_right (infix_extend_right (infix_extend_right
    (infix_extend_left _ h3) _) _) _

/-- Witness for the amended C1 at a concrete Backlog task. -/
theorem backlog_shows_stripped_text_witness :
    List.IsInfix (ofString "- [ ] " ++ cleanTask (ofString "E #foo"))
      (createEisenhowerMatrixContent [ofString "E #foo"] (ofString "T")) :=
  backlog_shows_stripped_text [ofString "E #foo"] (ofString "T") (ofString "E #foo")
    (by decide) (by decide)

/-- C2 counterexample: a task whose only tag token is `#urgent-now` is put
in the Delegate (urgent, not important) bucket, not the Backlog: the
source tests `/#urgent\b/i`, and `\b` holds between `t` and `-`, so the
match does not respect `-` as part of the tag name. -/
theorem tag_detection_counterexample :
    bucketOf (ofString "task #urgent-now") = Bucket.urgentNotImportant ∧
    bucketOf (ofString "task #urgent-now") ≠ Bucket.backlog := by
  decide

/-- C2 (amended): classification is total and assigns exactly one bucket in
the strict priority order urgent+important, important, urgent, later,
backlog, where a tag is detected case-insensitively as the literal token
(`#urgent`, `#important`, `#later`) at any position followed by a word
boundary — a following non-word character such as `-` ends the match, so
`#urgent-now` does carry the urgent tag. -/
theorem classification_priority_characterization :
    (∀ t : Str,
      (bucketOf t = Bucket.urgentImportant ↔ (hasUrgentTag t ∧ hasImportantTag t))
      ∧ (bucketOf t = Bucket.notUrgentImportant ↔ (hasImportantTag t ∧ ¬hasUrgentTag t))
      ∧ (bucketOf t = Bucket.urgentNotImportant ↔ (hasUrgentTag t ∧ ¬hasImportantTag t))
      ∧ (bucketOf t = Bucket.notUrgentNotImportant ↔
          (hasLaterTag t ∧ ¬hasUrgentTag t ∧ ¬hasImportantTag t))
      ∧ (bucketOf t = Bucket.backlog ↔
          (¬hasUrgentTag t ∧ ¬hasImportantTag t ∧ ¬hasLaterTag t)))
    ∧ bucketOf (ofString "task #urgent-now") = Bucket.urgentNotImportant
    ∧ bucketOf (ofString "A #URGENT #Important") = Bucket.urgentImportant := by
  refine ⟨?_, by decide, by decide⟩
  intro t
  cases hU : hasUrgentTag t <;> cases hI : hasImportantTag t <;> cases hL : hasLaterTag t <;>
    simp [bucketOf, hU, hI, hL]

/-- C8: extraction, classification and rendering are total Lean functions;
extracting the empty string yields the empty sequence, and rendering the
empty task sequence (any title) produces a block containing each quadrant
placeholder paragraph, the four placeholder messages being pairwise
distinct, with an empty Backlog section between the Backlog heading and
the instructions block. -/
theorem empty_input_behaviour :
    extractTasksFromContent (ofString "") = []
    ∧ (ofString "No urgent and important tasks" ≠ ofString "No important tasks to schedule"
      ∧ ofString "No urgent and important tasks" ≠ ofString "No tasks to delegate"
      ∧ ofString "No urgent and important tasks" ≠ ofString "No tasks to eliminate"
      ∧ ofString "No important tasks to schedule" ≠ ofString "No tasks to delegate"
      ∧ ofString "No important tasks to schedule" ≠ ofString "No tasks to eliminate"
      ∧ ofString "No tasks to delegate" ≠ ofString "No tasks to eliminate")
    ∧ ∀ title : Str,
      List.IsInfix (ofString "<p class=\"empty-message\">No urgent and important tasks</p>")
        (createEisenhowerMatrixContent [] title)
      ∧ List.IsInfix (ofString "<p class=\"empty-message\">No important tasks to schedule</p>")
        (createEisenhowerMatrixContent [] title)
      ∧ List.IsInfix (ofString "<p class=\"empty-message\">No tasks to delegate</p>")
        (createEisenhowerMatrixContent [] title)
      ∧ List.IsInfix (ofString "<p class=\"empty-message\">No tasks to eliminate</p>")
        (createEisenhowerMatrixContent [] title)
      ∧ List.IsInfix (ofString "## Backlog\n\n\n\n<div class=\"ematrix-instructions\">")
        (createEisenhowerMatrixContent [] title) := by
  refine ⟨by decide, by decide, ?_⟩
  intro title
  unfold createEisenhowerMatrixContent
  simp only [show backlogSection (bucketList Bucket.backlog []) = [] from rfl,
    List.append_nil, List.append_assoc]
  refine ⟨?_, ?_, ?_, ?_, ?_⟩
  · exact infix_extend_left _ (infix_extend_left _ (infix_extend_left _ (infix_extend_left _ (infix_extend_left _ (infix_extend_left _ (infix_extend_left _ (infix_extend_right (by decide) _)))))))
  · exact infix_extend_left _ (infix_extend_left _ (infix_extend_left _ (infix_extend_left _ (infix_extend_left _ (infix_extend_left _ (infix_extend_left _ (infix_extend_left _ (infix_extend_left _ (infix_extend_left _ (infix_extend_left _ (infix_extend_left _ (infix_extend_right (by decide) _))))))))))))
  · exact infix_extend_left _ (infix_extend_left _ (infix_extend_left _ (infix_extend_left _ (infix_extend_left _ (infix_extend_left _ (infix_extend_left _ (infix_extend_left _ (infix_extend_left _ (infix_extend_left _ (infix_extend_left _ (infix_extend_left _ (infix_extend_left _ (infix_extend_left _ (infix_extend_left _ (infix_extend_left _ (infix_extend_left _ (infix_extend_right (by decide) _)))))))))))))))))
  · exact infix_extend_left _ (infix_extend_left _ (infix_extend_left _ (infix_extend_left _ (infix_extend_left _ (infix_extend_left _ (infix_extend_left _ (infix_extend_left _ (infix_extend_left _ (infix_extend_left _ (infix_extend_left _ (infix_extend_left _ (infix_extend_left _ (infix_extend_left _ (infix_extend_left _ (infix_extend_left _ (infix_extend_left _ (infix_extend_left _ (infix_extend_left _ (infix_extend_left _ (infix_extend_left _ (infix_extend_left _ (infix_extend_right (by decide) _))))))))))))))))))))))
  · exact infix_extend_left _ (infix_extend_left _ (infix_extend_left _ (infix_extend_left _ (infix_extend_left _ (infix_extend_left _ (infix_extend_left _ (infix_extend_left _ (infix_extend_left _ (infix_extend_left _ (infix_extend_left _ (infix_extend_left _ (infix_extend_left _ (infix_extend_left _ (infix_extend_left _ (infix_extend_left _ (infix_extend_left _ (infix_extend_left _ (infix_extend_left _ (infix_extend_left _ (infix_extend_left _ (infix_extend_left _ (infix_extend_left _ (infix_extend_left _ ((by decide)))))))))))))))))))))))))

section StripIdempotence

/-- A whitespace character is not `#`. -/
theorem ws_ne_hash {c : Char} (h : isWsChar c = true) : c ≠ '#' := by
  have hm : c ∈ wsChars := List.elem_iff.1 h
  exact (by decide : ∀ x ∈ wsChars, x ≠ '#') c hm

/-- A whitespace character is not a tag character. -/
theorem ws_not_tagChar {c : Char} (h : isWsChar c = true) : isTagChar c = false := by
  have hm : c ∈ wsChars := List.elem_iff.1 h
  exact (by decide : ∀ x ∈ wsChars, isTagChar x = false) c hm

/-- `takeWhile` of a `dropWhile` remainder is empty. -/
theorem takeWhile_dropWhile_nil (p : Char → Bool) :
    ∀ l : Str, (l.dropWhile p).takeWhile p = [] := by
  intro l
  induction l with
  | nil => rfl
  | cons c cs ih =>
    by_cases hc : p c = true
    · rw [List.dropWhile_cons_of_pos hc]; exact ih
    · rw [List.dropWhile_cons_of_neg hc, List.takeWhile_cons_of_neg hc]

/-- If nothing is taken from the front, `dropWhile` is the identity. -/
theorem dropWhile_eq_self_of_takeWhile_nil {p : Char → Bool} {l : Str}
    (h : l.takeWhile p = []) : l.dropWhile p = l := by
  cases l with
  | nil => rfl
  | cons c cs =>
    by_cases hc : p c = true
    · rw [List.takeWhile_cons_of_pos hc] at h; cases h
    · exact List.dropWhile_cons_of_neg hc

/-- `takeWhile` stays empty on prefixes. -/
theorem takeWhile_nil_of_prefix {p : Char → Bool} {l₁ l₂ : Str}
    (hp : l₁ <+: l₂) (h : l₂.takeWhile p = []) : l₁.takeWhile p = [] := by
  cases l₁ with
  | nil => rfl
  | cons c cs =>
    obtain ⟨t, ht⟩ := hp
    subst ht
    by_cases hc : p c = true
    · rw [List.cons_append, List.takeWhile_cons_of_pos hc] at h; cases h
    · exact List.takeWhile_cons_of_neg hc

/-- `takeWhile` over an append whose left part is all accepted. -/
theorem takeWhile_append_all {p : Char → Bool} :
    ∀ {a : Str}, (∀ c ∈ a, p c = true) → ∀ b : Str,
      (a ++ b).takeWhile p = a ++ b.takeWhile p := by
  intro a
  induction a with
  | nil => intro _ b; rfl
  | cons c cs ih =>
    intro h b
    have hc : p c = true := h c (List.mem_cons_self c cs)
    rw [List.cons_append, List.takeWhile_cons_of_pos hc,
      ih (fun d hd => h d (List.mem_cons_of_mem c hd)) b, List.cons_append]

/-- A list all of whose elements are accepted is its own `takeWhile`. -/
theorem takeWhile_eq_self_of_all {p : Char → Bool} {a : Str}
    (h : ∀ c ∈ a, p c = true) : a.takeWhile p = a := by
  have := takeWhile_append_all h []
  simpa using this

/-- `takeWhile` over an append whose right part contributes nothing. -/
theorem takeWhile_append_nil_right {p : Char → Bool} {b : Str}
    (hb : b.takeWhile p = []) : ∀ a : Str, (a ++ b).takeWhile p = a.takeWhile p := by
  intro a
  induction a with
  | nil => simpa using hb
  | cons c cs ih =>
    by_cases hc : p c = true
    · rw [List.cons_append, List.takeWhile_cons_of_pos hc, ih,
        List.takeWhile_cons_of_pos hc]
    · rw [List.cons_append, List.takeWhile_cons_of_neg hc,
        List.takeWhile_cons_of_neg hc]

/-- The trailing-dash suffix removed by `dropTrailingDashes`. -/
def trailingDashes (l : Str) : Str :=
  (l.reverse.takeWhile (fun c => c = '-')).reverse

/-- Decomposition of a list into its dash-trimmed front and dash suffix. -/
theorem dtd_decomp (l : Str) : dropTrailingDashes l ++ trailingDashes l = l := by
  unfold dropTrailingDashes trailingDashes
  rw [← List.reverse_append, List.takeWhile_append_dropWhile, List.reverse_reverse]

/-- The removed suffix is all dashes. -/
theorem trailingDashes_all_dash (l : Str) : ∀ c ∈ trailingDashes l, c = '-' := by
  intro c hc
  rw [trailingDashes, List.mem_reverse] at hc
  have := List.mem_takeWhile_imp hc
  simpa using this

/-- `dropTrailingDashes` returns the empty list exactly on all-dash lists. -/
theorem dtd_eq_nil_iff (l : Str) :
    dropTrailingDashes l = [] ↔ ∀ c ∈ l, c = '-' := by
  unfold dropTrailingDashes
  rw [List.reverse_eq_nil_iff, List.dropWhile_eq_nil_iff]
  constructor
  · intro h c hc
    have := h c (List.mem_reverse.2 hc)
    simpa using this
  · intro h c hc
    simpa using h c (List.mem_reverse.1 hc)

/-- `dropTrailingDashes` never lengthens a list. -/
theorem dtd_length_le (l : Str) : (dropTrailingDashes l).length ≤ l.length := by
  conv_rhs => rw [← dtd_decomp l]
  simp

/-- `stripTags` on the empty string. -/
theorem stripTags_nil : stripTags [] = [] := rfl

/-- `takeWhile` never lengthens a list. -/
theorem takeWhile_length_le (p : Char → Bool) (l : Str) :
    (l.takeWhile p).length ≤ l.length := by
  induction l with
  | nil => simp
  | cons c cs ih =>
    by_cases hc : p c = true
    · rw [List.takeWhile_cons_of_pos hc]
      simpa using ih
    · rw [List.takeWhile_cons_of_neg hc]
      simp

/-- An all-whitespace prefix passes through `stripTags` untouched. -/
theorem strip_ws_prefix :
    ∀ {w : Str}, (∀ c ∈ w, isWsChar c = true) → ∀ x : Str,
      stripTags (w ++ x) = w ++ stripTags x := by
  intro w
  induction w with
  | nil => intro _ x; rfl
  | cons c cs ih =>
    intro h x
    have hc : c ≠ '#' := ws_ne_hash (h c (List.mem_cons_self c cs))
    rw [List.cons_append, stripTags_cons_ne _ hc,
      ih (fun d hd => h d (List.mem_cons_of_mem c hd)) x, List.cons_append]

/-- All-whitespace strings are fixed by `stripTags`. -/
theorem strip_all_ws {w : Str} (h : ∀ c ∈ w, isWsChar c = true) :
    stripTags w = w := by
  have := strip_ws_prefix h []
  simpa [stripTags_nil] using this

/-- An all-whitespace suffix passes through `stripTags` untouched: the
suffix contains no tag characters, so it neither starts nor extends any
match of the stripping regex. -/
theorem strip_ws_suffix {w : Str} (hw : ∀ c ∈ w, isWsChar c = true) :
    ∀ x : Str, stripTags (x ++ w) = stripTags x ++ w := by
  have hwt : w.takeWhile isTagChar = [] := by
    cases w with
    | nil => rfl
    | cons c cs =>
      exact List.takeWhile_cons_of_neg (by
        simp [ws_not_tagChar (hw c (List.mem_cons_self c cs))])
  have H : ∀ (n : Nat) (x : Str), x.length ≤ n →
      stripTags (x ++ w) = stripTags x ++ w := by
    intro n
    induction n with
    | zero =>
      intro x hx
      have : x = [] := List.length_eq_zero.1 (Nat.le_zero.1 hx)
      subst this
      simpa using strip_all_ws hw
    | succ n ih =>
      intro x hx
      match x with
      | [] => simpa using strip_all_ws hw
      | c :: cs =>
        have h1 : cs.length ≤ n := by simpa using hx
        by_cases hc : c = '#'
        · subst hc
          rw [List.cons_append, stripTags_cons_hash, stripTags_cons_hash]
          have heq : (cs ++ w).takeWhile isTagChar = cs.takeWhile isTagChar :=
            takeWhile_append_nil_right hwt cs
          rw [heq]
          by_cases hr : dropTrailingDashes (cs.takeWhile isTagChar) = []
          · rw [if_pos hr, if_pos hr, ih cs h1, List.cons_append]
          · rw [if_neg hr, if_neg hr]
            have hlen : (dropTrailingDashes (cs.takeWhile isTagChar)).length
                ≤ cs.length :=
              Nat.le_trans (dtd_length_le _) (takeWhile_length_le isTagChar cs)
            rw [List.drop_append_of_le_length hlen]
            exact ih _ (Nat.le_trans (by simp) h1)
        · rw [List.cons_append, stripTags_cons_ne _ hc, stripTags_cons_ne _ hc,
            ih cs h1, List.cons_append]
  intro x
  exact H x.length x (Nat.le_refl _)

/-- If the maximal tag-character run at the head of `s` is all dashes, the
same holds after stripping: stripping never creates a word character right
after a kept position at the head of the scan. -/
theorem allDash_takeWhile_strip :
    ∀ (n : Nat) (s : Str), s.length ≤ n →
      (∀ c ∈ s.takeWhile isTagChar, c = '-') →
      ∀ c ∈ (stripTags s).takeWhile isTagChar, c = '-' := by
  intro n
  induction n with
  | zero =>
    intro s hs
    have : s = [] := List.length_eq_zero.1 (Nat.le_zero.1 hs)
    subst this
    intro _ c hc
    exact absurd hc (List.not_mem_nil c)
  | succ n ih =>
    intro s hs hall
    match s with
    | [] => intro c hc; exact absurd hc (List.not_mem_nil c)
    | c :: cs =>
      have h1 : cs.length ≤ n := by simpa using hs
      by_cases hc : c = '#'
      · subst hc
        rw [stripTags_cons_hash]
        by_cases hr : dropTrailingDashes (cs.takeWhile isTagChar) = []
        · rw [if_pos hr]
          intro d hd
          rw [List.takeWhile_cons_of_neg (by decide)] at hd
          cases hd
        · rw [if_neg hr]
          -- after the match, the remainder starts with the removed run's
          -- trailing dashes followed by a non-tag character
          have hsplit : cs = dropTrailingDashes (cs.takeWhile isTagChar) ++
              (trailingDashes (cs.takeWhile isTagChar) ++ cs.dropWhile isTagChar) := by
            conv_lhs => rw [← List.takeWhile_append_dropWhile isTagChar cs]
            conv_lhs => rw [← dtd_decomp (cs.takeWhile isTagChar)]
            rw [List.append_assoc]
          have haux : ∀ r z : Str, cs = r ++ z → cs.drop r.length = z := by
            intro r z hrz
            rw [hrz]
            exact List.drop_left r z
          have hdrop : cs.drop (dropTrailingDashes (cs.takeWhile isTagChar)).length
              = trailingDashes (cs.takeWhile isTagChar) ++ cs.dropWhile isTagChar :=
            haux _ _ hsplit
          rw [hdrop]
          refine ih _ ?_ ?_
          · rw [← hdrop]
            exact Nat.le_trans (by simp) h1
          · rw [takeWhile_append_nil_right (takeWhile_dropWhile_nil isTagChar cs),
              takeWhile_eq_self_of_all (fun d hd => by
                simp [trailingDashes_all_dash _ d hd, isTagChar, isWordChar])]
            exact trailingDashes_all_dash _
      · by_cases ht : isTagChar c = true
        · by_cases hdash : c = '-'
          · subst hdash
            rw [stripTags_cons_ne _ hc]
            rw [List.takeWhile_cons_of_pos ht] at hall ⊢
            intro d hd
            rcases List.mem_cons.1 hd with rfl | hd2
            · rfl
            · exact ih cs h1 (fun e he => hall e (List.mem_cons_of_mem _ he)) d hd2
          · exfalso
            exact hdash (hall c (by
              rw [List.takeWhile_cons_of_pos ht]
              exact List.mem_cons_self _ _))
        · rw [stripTags_cons_ne _ hc]
          intro d hd
          rw [List.takeWhile_cons_of_neg ht] at hd
          cases hd

/-- `stripTags` is idempotent. -/
theorem stripTags_idem : ∀ s : Str, stripTags (stripTags s) = stripTags s := by
  have H : ∀ (n : Nat) (s : Str), s.length ≤ n →
      stripTags (stripTags s) = stripTags s := by
    intro n
    induction n with
    | zero =>
      intro s hs
      have : s = [] := List.length_eq_zero.1 (Nat.le_zero.1 hs)
      subst this
      rfl
    | succ n ih =>
      intro s hs
      match s with
      | [] => rfl
      | c :: cs =>
        have h1 : cs.length ≤ n := by simpa using hs
        by_cases hc : c = '#'
        · subst hc
          rw [stripTags_cons_hash]
          by_cases hr : dropTrailingDashes (cs.takeWhile isTagChar) = []
          · rw [if_pos hr, stripTags_cons_hash]
            have hall : ∀ c ∈ (stripTags cs).takeWhile isTagChar, c = '-' :=
              allDash_takeWhile_strip cs.length cs (Nat.le_refl _)
                ((dtd_eq_nil_iff _).1 hr)
            rw [if_pos ((dtd_eq_nil_iff _).2 hall), ih cs h1]
          · rw [if_neg hr]
            exact ih _ (Nat.le_trans (by simp) h1)
        · rw [stripTags_cons_ne _ hc, stripTags_cons_ne _ hc, ih cs h1]
  intro s
  exact H s.length s (Nat.le_refl _)

/-- The whitespace suffix removed by `trimRight`. -/
def wsSuffix (l : Str) : Str := (l.reverse.takeWhile isWsChar).reverse

/-- Decomposition of a list into its right-trimmed front and its
whitespace suffix. -/
theorem trimRight_decomp (l : Str) : trimRight l ++ wsSuffix l = l := by
  unfold trimRight wsSuffix
  rw [← List.reverse_append, List.takeWhile_append_dropWhile, List.reverse_reverse]

/-- The removed suffix is all whitespace. -/
theorem wsSuffix_all_ws (l : Str) : ∀ c ∈ wsSuffix l, isWsChar c = true := by
  intro c hc
  rw [wsSuffix, List.mem_reverse] at hc
  exact List.mem_takeWhile_imp hc

/-- `trimRight` is a prefix of its argument. -/
theorem trimRight_front (l : Str) : trimRight l <+: l :=
  ⟨wsSuffix l, trimRight_decomp l⟩

/-- What `stripTags` fixes, it still fixes after trimming. -/
theorem strip_fixes_trim {u : Str} (h : stripTags u = u) :
    stripTags (trim u) = trim u := by
  -- peel the whitespace prefix
  have hdecompL : u.takeWhile isWsChar ++ trimLeft u = u :=
    List.takeWhile_append_dropWhile isWsChar u
  have hwsL : ∀ c ∈ u.takeWhile isWsChar, isWsChar c = true :=
    fun c hc => List.mem_takeWhile_imp hc
  have hL : stripTags (trimLeft u) = trimLeft u := by
    have h0 := strip_ws_prefix hwsL (trimLeft u)
    rw [hdecompL, h] at h0
    have h4 : u.takeWhile isWsChar ++ trimLeft u
        = u.takeWhile isWsChar ++ stripTags (trimLeft u) := by
      conv_lhs => rw [hdecompL]
      exact h0
    exact (List.append_cancel_left h4).symm
  -- peel the whitespace suffix
  have hdecompR : trimRight (trimLeft u) ++ wsSuffix (trimLeft u) = trimLeft u :=
    trimRight_decomp (trimLeft u)
  have hR : stripTags (trimRight (trimLeft u)) = trimRight (trimLeft u) := by
    have h0 := strip_ws_suffix (wsSuffix_all_ws (trimLeft u)) (trimRight (trimLeft u))
    rw [hdecompR, hL] at h0
    have h5 : trimRight (trimLeft u) ++ wsSuffix (trimLeft u)
        = stripTags (trimRight (trimLeft u)) ++ wsSuffix (trimLeft u) := by
      conv_lhs => rw [hdecompR]
      exact h0
    exact (List.append_cancel_right h5.symm)
  exact hR

/-- `trim` is idempotent. -/
theorem trim_idem (u : Str) : trim (trim u) = trim u := by
  have h1 : (trimLeft u).takeWhile isWsChar = [] :=
    takeWhile_dropWhile_nil isWsChar u
  have h2 : (trim u).takeWhile isWsChar = [] :=
    takeWhile_nil_of_prefix (trimRight_front (trimLeft u)) h1
  have h3 : trimLeft (trim u) = trim u :=
    dropWhile_eq_self_of_takeWhile_nil h2
  show trimRight (trimLeft (trim u)) = trim u
  rw [h3]
  show trimRight (trimRight (trimLeft u)) = trimRight (trimLeft u)
  unfold trimRight
  rw [List.reverse_reverse]
  congr 1
  exact dropWhile_eq_self_of_takeWhile_nil
    (takeWhile_dropWhile_nil isWsChar (trimLeft u).reverse)

end StripIdempotence

/-- C7: the tag-stripping-and-trimming display cleanup is idempotent:
cleaning an already cleaned string is a no-op.  Stripping removes `#`
followed by a tag-character run with its trailing dashes dropped, and the
scan never leaves a removable token behind, so the cleaned text has no
further match and trimming it again changes nothing. -/
theorem cleanTask_idem : ∀ task : Str, cleanTask (cleanTask task) = cleanTask task := by
  intro task
  unfold cleanTask
  rw [strip_fixes_trim (stripTags_idem task)]
  exact trim_idem (stripTags task)

section CountingLemmas

/-- Occurrence count in the empty string. -/
theorem countOcc_nil {pat : Str} (h : pat ≠ []) : countOcc pat [] = 0 := by
  match pat, h with
  | p :: ps, _ => rfl

/-- Occurrence count unfolding at a cons cell. -/
theorem countOcc_cons (pat : Str) (c : Char) (r : Str) :
    countOcc pat (c :: r) = (if pat.isPrefixOf (c :: r) then 1 else 0) + countOcc pat r := by
  unfold countOcc
  rw [List.tails_cons, List.filter_cons]
  by_cases hp : pat.isPrefixOf (c :: r) = true <;> simp [hp] <;> omega

/-- A newline-free pattern cannot reach past a newline. -/
theorem isPrefixOf_append_nl {pat : Str} (hnl : ('\n' : Char) ∉ pat) :
    ∀ (x y : Str), pat.isPrefixOf (x ++ '\n' :: y) = pat.isPrefixOf x := by
  induction pat with
  | nil => intro x y; cases x <;> rfl
  | cons p ps ih =>
    intro x y
    cases x with
    | nil =>
      have hp : ¬ (p == '\n') = true := by
        simp only [beq_iff_eq]
        exact fun h => hnl (h ▸ List.mem_cons_self p ps)
      simp [List.isPrefixOf, hp]
    | cons d xs =>
      show ((p == d) && ps.isPrefixOf (xs ++ '\n' :: y))
          = ((p == d) && ps.isPrefixOf xs)
      rw [ih (fun h => hnl (List.mem_cons_of_mem p h)) xs y]

/-- Occurrences of a newline-free pattern split additively at a newline. -/
theorem countOcc_append_nl_cons {pat : Str} (hnl : ('\n' : Char) ∉ pat)
    (hne : pat ≠ []) :
    ∀ (x y : Str), countOcc pat (x ++ '\n' :: y) = countOcc pat x + countOcc pat y := by
  intro x
  induction x with
  | nil =>
    intro y
    rw [List.nil_append, countOcc_cons, countOcc_nil hne]
    have h0 : pat.isPrefixOf ('\n' :: y) = false := by
      match pat, hne with
      | p :: ps, _ =>
        have hp : ¬ (p == '\n') = true := by
          simp only [beq_iff_eq]
          exact fun h => hnl (h ▸ List.mem_cons_self p ps)
        simp [List.isPrefixOf, hp]
    rw [h0]
    simp
  | cons c xs ih =>
    intro y
    rw [List.cons_append, countOcc_cons, ih, countOcc_cons]
    have h0 := isPrefixOf_append_nl hnl (c :: xs) y
    rw [List.cons_append] at h0
    rw [h0]
    omega

/-- Chunk-peeling form of the newline split. -/
theorem countOcc_seg (pat a : Str) {y : Str} (hnl : ('\n' : Char) ∉ pat)
    (hne : pat ≠ []) :
    countOcc pat (a ++ (ofString "\n" ++ y)) = countOcc pat a + countOcc pat y :=
  countOcc_append_nl_cons hnl hne a y

/-- A chunk not containing the pattern head starts no occurrence. -/
theorem countOcc_head_notin (pat : Str) (c0 : Char) (a : Str) {b : Str}
    (hh : pat.head? = some c0) (ha : c0 ∉ a) :
    countOcc pat (a ++ b) = countOcc pat b := by
  match pat, hh with
  | p :: ps, hh =>
    have hp : p = c0 := by simpa using hh
    subst hp
    induction a with
    | nil => rw [List.nil_append]
    | cons d xs ih =>
      rw [List.cons_append, countOcc_cons]
      have h0 : (p :: ps).isPrefixOf (d :: (xs ++ b)) = false := by
        have : ¬ (p == d) = true := by
          simp only [beq_iff_eq]
          exact fun h => ha (h ▸ List.mem_cons_self d xs)
        simp [List.isPrefixOf, this]
      rw [h0]
      simp only [if_neg (by simp : ¬ (false = true)), Nat.zero_add]
      exact ih (fun h => ha (List.mem_cons_of_mem d h))

/-- If some pattern character is absent from a string, the pattern does
not occur in it. -/
theorem countOcc_zero_of_not_mem {pat s : Str} {c0 : Char} (hc : c0 ∈ pat)
    (hs : c0 ∉ s) : countOcc pat s = 0 := by
  induction s with
  | nil => exact countOcc_nil (List.ne_nil_of_mem hc)
  | cons d xs ih =>
    rw [countOcc_cons]
    have h1 : pat.isPrefixOf (d :: xs) = false := by
      cases hp : pat.isPrefixOf (d :: xs) with
      | false => rfl
      | true =>
        exact absurd ((List.isPrefixOf_iff_prefix.1 hp).subset hc) hs
    rw [h1]
    simp only [if_neg (by simp : ¬ (false = true)), Nat.zero_add]
    exact ih (fun h => hs (List.mem_cons_of_mem d h))

/-- An infix is found by `includes`. -/
theorem includes_of_substring {pat s : Str} (h : List.IsInfix pat s) :
    includesStr pat s = true := by
  obtain ⟨a, b, hab⟩ := h
  unfold includesStr
  rw [List.any_eq_true]
  refine ⟨pat ++ b, ?_, List.isPrefixOf_iff_prefix.2 (List.prefix_append pat b)⟩
  exact (List.mem_tails _ _).2 ⟨a, by rw [← hab, List.append_assoc]⟩

/-- Characters of the stripped string come from the original. -/
theorem mem_stripTags {c : Char} : ∀ s : Str, c ∈ stripTags s → c ∈ s := by
  have H : ∀ (n : Nat) (s : Str), s.length ≤ n → c ∈ stripTags s → c ∈ s := by
    intro n
    induction n with
    | zero =>
      intro s hs
      have : s = [] := List.length_eq_zero.1 (Nat.le_zero.1 hs)
      subst this
      exact fun h => h
    | succ n ih =>
      intro s hs hc
      match s with
      | [] => exact hc
      | d :: cs =>
        have h1 : cs.length ≤ n := by simpa using hs
        by_cases hd : d = '#'
        · subst hd
          rw [stripTags_cons_hash] at hc
          by_cases hr : dropTrailingDashes (cs.takeWhile isTagChar) = []
          · rw [if_pos hr] at hc
            rcases List.mem_cons.1 hc with rfl | hc2
            · exact List.mem_cons_self _ _
            · exact List.mem_cons_of_mem _ (ih cs h1 hc2)
          · rw [if_neg hr] at hc
            have := ih _ (Nat.le_trans (by simp) h1) hc
            exact List.mem_cons_of_mem _ (List.drop_subset _ _ this)
        · rw [stripTags_cons_ne _ hd] at hc
          rcases List.mem_cons.1 hc with rfl | hc2
          · exact List.mem_cons_self _ _
          · exact List.mem_cons_of_mem _ (ih cs h1 hc2)
  exact fun s => H s.length s (Nat.le_refl _)

/-- Characters of the trimmed string come from the original. -/
theorem mem_trim {c : Char} (s : Str) : c ∈ trim s → c ∈ s := by
  intro hc
  unfold trim trimRight at hc
  rw [List.mem_reverse] at hc
  have h1 := (List.dropWhile_sublist isWsChar).subset hc
  rw [List.mem_reverse] at h1
  exact (List.dropWhile_sublist isWsChar).subset h1

/-- Characters of the cleaned task text come from the task. -/
theorem mem_cleanTask {c : Char} (t : Str) : c ∈ cleanTask t → c ∈ t :=
  fun h => mem_stripTags t (mem_trim (stripTags t) h)

/-- Quadrant markup built from clean tasks does not contain a character
foreign to its literals, its message and its tasks. -/
theorem not_mem_createTaskList {c0 : Char} (ts : List Str) (msg : Str)
    (hA : c0 ∉ ofString "<p class=\"empty-message\">") (hB : c0 ∉ ofString "</p>")
    (hC : c0 ∉ ofString "<ul>") (hD : c0 ∉ ofString "<li>- [ ] ")
    (hE : c0 ∉ ofString "</li>") (hF : c0 ∉ ofString "</ul>")
    (hmsg : c0 ∉ msg) (hts : ∀ e ∈ ts, c0 ∉ e) :
    c0 ∉ createTaskList ts msg := by
  intro hc
  unfold createTaskList at hc
  by_cases hnil : ts = []
  · rw [if_pos hnil] at hc
    rcases List.mem_append.1 hc with h1 | h1
    · rcases List.mem_append.1 h1 with h2 | h2
      · exact hA h2
      · exact hmsg h2
    · exact hB h1
  · rw [if_neg hnil] at hc
    rcases List.mem_append.1 hc with h1 | h1
    · rcases List.mem_append.1 h1 with h2 | h2
      · exact hC h2
      · obtain ⟨L, hL, hcL⟩ := List.mem_flatten.1 h2
        obtain ⟨t, htmem, rfl⟩ := List.mem_map.1 hL
        rcases List.mem_append.1 hcL with h3 | h3
        · rcases List.mem_append.1 h3 with h4 | h4
          · exact hD h4
          · exact hts t htmem h4
        · exact hE h3
    · exact hF h1

/-- The quadrant markup contains no pattern occurrence, as witnessed by an
absent probe character for the task case and a direct check for the
empty-quadrant case. -/
theorem countOcc_createTaskList_zero (pat : Str) (c0 : Char) (hc0 : c0 ∈ pat)
    (msg : Str) (hempty : countOcc pat (createTaskList [] msg) = 0)
    (hC : c0 ∉ ofString "<ul>") (hD : c0 ∉ ofString "<li>- [ ] ")
    (hE : c0 ∉ ofString "</li>") (hF : c0 ∉ ofString "</ul>")
    (ts : List Str) (hts : ∀ e ∈ ts, c0 ∉ e) :
    countOcc pat (createTaskList ts msg) = 0 := by
  cases ts with
  | nil => exact hempty
  | cons t ts2 =>
    apply countOcc_zero_of_not_mem hc0
    intro hc
    unfold createTaskList at hc
    rw [if_neg (by simp)] at hc
    rcases List.mem_append.1 hc with h1 | h1
    · rcases List.mem_append.1 h1 with h2 | h2
      · exact hC h2
      · obtain ⟨L, hL, hcL⟩ := List.mem_flatten.1 h2
        obtain ⟨u, humem, rfl⟩ := List.mem_map.1 hL
        rcases List.mem_append.1 hcL with h3 | h3
        · rcases List.mem_append.1 h3 with h4 | h4
          · exact hD h4
          · exact hts u humem h4
        · exact hE h3
    · exact hF h1

/-- The backlog section contains no pattern occurrence when a probe
character of the pattern is absent from its line prefix and entries. -/
theorem countOcc_backlogSection_zero (pat : Str) (hnl : ('\n' : Char) ∉ pat)
    (hne : pat ≠ []) (c0 : Char) (hc0 : c0 ∈ pat)
    (hlit : c0 ∉ ofString "- [ ] ") :
    ∀ entries : List Str, (∀ e ∈ entries, c0 ∉ e) →
      countOcc pat (backlogSection entries) = 0 := by
  intro entries
  induction entries with
  | nil => intro _; exact countOcc_nil hne
  | cons e rest ih =>
    intro h
    cases rest with
    | nil =>
      apply countOcc_zero_of_not_mem hc0
      intro hc
      simp only [backlogSection, List.map, joinSep] at hc
      rcases List.mem_append.1 hc with h1 | h1
      · exact hlit h1
      · exact h e (List.mem_cons_self _ _) h1
    | cons e2 rest2 =>
      have hexp : backlogSection (e :: e2 :: rest2)
          = (ofString "- [ ] " ++ e) ++
            (ofString "\n" ++ backlogSection (e2 :: rest2)) := by
        simp [backlogSection, joinSep, List.append_assoc]
      rw [hexp, countOcc_seg pat _ hnl hne,
        ih (fun x hx => h x (List.mem_cons_of_mem _ hx))]
      have h0 : countOcc pat (ofString "- [ ] " ++ e) = 0 := by
        apply countOcc_zero_of_not_mem hc0
        intro hc
        rcases List.mem_append.1 hc with h1 | h1
        · exact hlit h1
        · exact h e (List.mem_cons_self _ _) h1
      rw [h0]

end CountingLemmas

/-- Bucket entries are cleaned texts of input tasks classified there. -/
theorem mem_bucketList {e : Str} {b : Bucket} {tasks : List Str} :
    e ∈ bucketList b tasks → ∃ t ∈ tasks, bucketOf t = b ∧ e = cleanTask t := by
  intro h
  obtain ⟨t, ht, rfl⟩ := List.mem_map.1 h
  have h2 := List.mem_filter.1 ht
  exact ⟨t, h2.1, by simpa using h2.2, rfl⟩

/-- C6 counterexample: the claim quantifies over every task sequence and
title, but a title that itself contains the fenced marker text makes the
marker appear twice in the rendered block, so "exactly once" fails. -/
theorem sentinel_marker_counterexample :
    countOcc matrixFenceMarker
      (createEisenhowerMatrixContent [] (ofString "```eisenhower-matrix")) = 2 := by
  decide

/-- C6 (amended): the rendered block always contains both sentinel markers
(so a caller re-scanning it always reports it as already processed), and
each marker occurs exactly once provided the title contains no backtick
and no `<`, and no task contains a backtick or a double quote. -/
theorem sentinel_markers :
    ∀ (tasks : List Str) (title : Str),
      isAlreadyProcessed (createEisenhowerMatrixContent tasks title) = true
      ∧ (('`' : Char) ∉ title → ('<' : Char) ∉ title →
        (∀ t ∈ tasks, ('`' : Char) ∉ t ∧ ('"' : Char) ∉ t) →
        countOcc matrixFenceMarker (createEisenhowerMatrixContent tasks title) = 1
        ∧ countOcc containerMarker (createEisenhowerMatrixContent tasks title) = 1) := by
  intro tasks title
  constructor
  · have h1 : List.IsInfix matrixFenceMarker
        (createEisenhowerMatrixContent tasks title) := by
      unfold createEisenhowerMatrixContent
      simp only [List.append_assoc]
      exact infix_extend_left _ (infix_extend_left _ (infix_extend_left _
        (infix_extend_left _ (infix_extend_right (by decide) _))))
    have h2 : List.IsInfix containerMarker
        (createEisenhowerMatrixContent tasks title) := by
      unfold createEisenhowerMatrixContent
      simp only [List.append_assoc]
      exact infix_extend_left _ (infix_extend_left _ (infix_extend_left _
        (infix_extend_left _ (infix_extend_right (by decide) _))))
    unfold isAlreadyProcessed
    rw [includes_of_substring h1, includes_of_substring h2]
    rfl
  · intro hBt hLt htasks
    constructor
    · have hh : matrixFenceMarker.head? = some '`' := by decide
      have hnl : ('\n' : Char) ∉ matrixFenceMarker := by decide
      have hne : matrixFenceMarker ≠ [] := by decide
      have hent : ∀ b : Bucket, ∀ e ∈ bucketList b tasks, ('`' : Char) ∉ e := by
        intro b e he hcE
        obtain ⟨t, htm, _, rfl⟩ := mem_bucketList he
        exact (htasks t htm).1 (mem_cleanTask t hcE)
      have hQ1 := countOcc_createTaskList_zero matrixFenceMarker '`' (by decide)
        (ofString "No urgent and important tasks") (by decide) (by decide) (by decide)
        (by decide) (by decide) (bucketList .urgentImportant tasks) (hent _)
      have hQ2 := countOcc_createTaskList_zero matrixFenceMarker '`' (by decide)
        (ofString "No important tasks to schedule") (by decide) (by decide) (by decide)
        (by decide) (by decide) (bucketList .notUrgentImportant tasks) (hent _)
      have hQ3 := countOcc_createTaskList_zero matrixFenceMarker '`' (by decide)
        (ofString "No tasks to delegate") (by decide) (by decide) (by decide)
        (by decide) (by decide) (bucketList .urgentNotImportant tasks) (hent _)
      have hQ4 := countOcc_createTaskList_zero matrixFenceMarker '`' (by decide)
        (ofString "No tasks to eliminate") (by decide) (by decide) (by decide)
        (by decide) (by decide) (bucketList .notUrgentNotImportant tasks) (hent _)
      have hBS := countOcc_backlogSection_zero matrixFenceMarker hnl hne '`'
        (by decide) (by decide) (bucketList .backlog tasks) (hent _)
      unfold createEisenhowerMatrixContent
      simp only [List.append_assoc]
      rw [countOcc_head_notin matrixFenceMarker '`' _ hh (by decide),
        countOcc_head_notin matrixFenceMarker '`' _ hh hBt,
        countOcc_head_notin matrixFenceMarker '`' _ hh (by decide),
        countOcc_head_notin matrixFenceMarker '`' _ hh (by decide),
        countOcc_seg matrixFenceMarker _ hnl hne,
        countOcc_head_notin matrixFenceMarker '`' _ hh (by decide),
        countOcc_seg matrixFenceMarker _ hnl hne,
        countOcc_seg matrixFenceMarker _ hnl hne,
        countOcc_head_notin matrixFenceMarker '`' _ hh (by decide),
        countOcc_seg matrixFenceMarker _ hnl hne,
        countOcc_seg matrixFenceMarker _ hnl hne,
        countOcc_head_notin matrixFenceMarker '`' _ hh (by decide),
        countOcc_seg matrixFenceMarker _ hnl hne,
        countOcc_seg matrixFenceMarker _ hnl hne,
        countOcc_head_notin matrixFenceMarker '`' _ hh (by decide),
        countOcc_seg matrixFenceMarker _ hnl hne,
        countOcc_seg matrixFenceMarker _ hnl hne,
        countOcc_head_notin matrixFenceMarker '`' _ hh (by decide),
        countOcc_seg matrixFenceMarker _ hnl hne,
        countOcc_head_notin matrixFenceMarker '`' _ hh (by decide),
        hQ1, hQ2, hQ3, hQ4, hBS]
      decide
    · have hh : containerMarker.head? = some '<' := by decide
      have hnl : ('\n' : Char) ∉ containerMarker := by decide
      have hne : containerMarker ≠ [] := by decide
      have hent : ∀ b : Bucket, ∀ e ∈ bucketList b tasks, ('"' : Char) ∉ e := by
        intro b e he hcE
        obtain ⟨t, htm, _, rfl⟩ := mem_bucketList he
        exact (htasks t htm).2 (mem_cleanTask t hcE)
      have hQ1 := countOcc_createTaskList_zero containerMarker '"' (by decide)
        (ofString "No urgent and important tasks") (by decide) (by decide) (by decide)
        (by decide) (by decide) (bucketList .urgentImportant tasks) (hent _)
      have hQ2 := countOcc_createTaskList_zero containerMarker '"' (by decide)
        (ofString "No important tasks to schedule") (by decide) (by decide) (by decide)
        (by decide) (by decide) (bucketList .notUrgentImportant tasks) (hent _)
      have hQ3 := countOcc_createTaskList_zero containerMarker '"' (by decide)
        (ofString "No tasks to delegate") (by decide) (by decide) (by decide)
        (by decide) (by decide) (bucketList .urgentNotImportant tasks) (hent _)
      have hQ4 := countOcc_createTaskList_zero containerMarker '"' (by decide)
        (ofString "No tasks to eliminate") (by decide) (by decide) (by decide)
        (by decide) (by decide) (bucketList .notUrgentNotImportant tasks) (hent _)
      have hBS := countOcc_backlogSection_zero containerMarker hnl hne '"'
        (by decide) (by decide) (bucketList .backlog tasks) (hent _)
      unfold createEisenhowerMatrixContent
      simp only [List.append_assoc]
      rw [countOcc_head_notin containerMarker '<' _ hh (by decide),
        countOcc_head_notin containerMarker '<' _ hh hLt,
        countOcc_head_notin containerMarker '<' _ hh (by decide),
        countOcc_head_notin containerMarker '<' _ hh (by decide),
        countOcc_seg containerMarker _ hnl hne,
        countOcc_head_notin containerMarker '<' _ hh (by decide),
        countOcc_seg containerMarker _ hnl hne,
        countOcc_seg containerMarker _ hnl hne,
        countOcc_head_notin containerMarker '<' _ hh (by decide),
        countOcc_seg containerMarker _ hnl hne,
        countOcc_seg containerMarker _ hnl hne,
        countOcc_head_notin containerMarker '<' _ hh (by decide),
        countOcc_seg containerMarker _ hnl hne,
        countOcc_seg containerMarker _ hnl hne,
        countOcc_head_notin containerMarker '<' _ hh (by decide),
        countOcc_seg containerMarker _ hnl hne,
        countOcc_seg containerMarker _ hnl hne,
        countOcc_head_notin containerMarker '<' _ hh (by decide),
        countOcc_seg containerMarker _ hnl hne,
        countOcc_head_notin containerMarker '<' _ hh (by decide),
        hQ1, hQ2, hQ3, hQ4, hBS]
      decide

/-- Witness for the amended C6 at a concrete input. -/
theorem sentinel_markers_witness :
    countOcc matrixFenceMarker
      (createEisenhowerMatrixContent [ofString "A #urgent"] (ofString "T")) = 1
    ∧ countOcc containerMarker
      (createEisenhowerMatrixContent [ofString "A #urgent"] (ofString "T")) = 1 :=
  (sentinel_markers [ofString "A #urgent"] (ofString "T")).2
    (by decide) (by decide) (by decide)

section RoundTripLemmas

/-- Splitting never produces the empty list of lines. -/
theorem splitLines_ne_nil : ∀ s : Str, splitLines s ≠ [] := by
  intro s
  cases s with
  | nil => simp [splitLines]
  | cons c cs =>
    by_cases hc : c = '\n'
    · simp [splitLines, hc]
    · simp only [splitLines, if_neg hc]
      cases splitLines cs <;> simp

/-- Lines split additively at a newline. -/
theorem splitLines_append_nl :
    ∀ (a y : Str), splitLines (a ++ '\n' :: y) = splitLines a ++ splitLines y := by
  intro a y
  induction a with
  | nil => rfl
  | cons c cs ih =>
    by_cases hc : c = '\n'
    · subst hc
      show splitLines ('\n' :: (cs ++ '\n' :: y)) = splitLines ('\n' :: cs) ++ splitLines y
      simp only [splitLines, if_pos rfl]
      rw [ih]
      rfl
    · obtain ⟨l, ls, hls⟩ : ∃ l ls, splitLines cs = l :: ls := by
        cases h : splitLines cs with
        | nil => exact absurd h (splitLines_ne_nil cs)
        | cons l ls => exact ⟨l, ls, rfl⟩
      show splitLines (c :: (cs ++ '\n' :: y)) = splitLines (c :: cs) ++ splitLines y
      simp only [splitLines, if_neg hc]
      rw [ih, hls]
      simp

/-- Chunk-shaped form of the newline split. -/
theorem splitLines_seg (a y : Str) :
    splitLines (a ++ (ofString "\n" ++ y)) = splitLines a ++ splitLines y :=
  splitLines_append_nl a y

/-- A newline-free string is a single line. -/
theorem splitLines_noNl {x : Str} (h : ∀ c ∈ x, c ≠ '\n') : splitLines x = [x] := by
  induction x with
  | nil => rfl
  | cons c cs ih =>
    have hc : c ≠ '\n' := h c (List.mem_cons_self c cs)
    simp only [splitLines, if_neg hc]
    rw [ih (fun d hd => h d (List.mem_cons_of_mem c hd))]

/-- Prepending a newline-free prefix extends the first line. -/
theorem splitLines_noNl_front {a : Str} (h : ∀ c ∈ a, c ≠ '\n') (z : Str) :
    splitLines (a ++ z) = (a ++ (splitLines z).headI) :: (splitLines z).tail := by
  induction a with
  | nil =>
    obtain ⟨l, ls, hls⟩ : ∃ l ls, splitLines z = l :: ls := by
      cases hz : splitLines z with
      | nil => exact absurd hz (splitLines_ne_nil z)
      | cons l ls => exact ⟨l, ls, rfl⟩
    rw [List.nil_append, hls]
    rfl
  | cons c cs ih =>
    have hc : c ≠ '\n' := h c (List.mem_cons_self c cs)
    show splitLines (c :: (cs ++ z)) = _
    simp only [splitLines, if_neg hc]
    rw [ih (fun d hd => h d (List.mem_cons_of_mem c hd))]
    rfl

/-- The state after one line is the step's state. -/
theorem extractState_cons (b : Bool) (l : Str) (ls : List Str) :
    extractState b (l :: ls) = extractState (extractStep b l).1 ls := rfl

/-- A line that emits nothing only threads the state. -/
theorem extractLoop_cons_none {b b2 : Bool} {l : Str} (ls : List Str)
    (h : extractStep b l = (b2, none)) :
    extractLoop b (l :: ls) = extractLoop b2 ls := by
  show (match extractStep b l with
    | (c2, some t) => t :: extractLoop c2 ls
    | (c2, none) => extractLoop c2 ls) = _
  rw [h]

/-- A line that emits a task prepends it. -/
theorem extractLoop_cons_some {b b2 : Bool} {l t : Str} (ls : List Str)
    (h : extractStep b l = (b2, some t)) :
    extractLoop b (l :: ls) = t :: extractLoop b2 ls := by
  show (match extractStep b l with
    | (c2, some u) => u :: extractLoop c2 ls
    | (c2, none) => extractLoop c2 ls) = _
  rw [h]

/-- The loop splits over appended line lists, threading the state. -/
theorem extractLoop_append :
    ∀ (xs : List Str) (b : Bool) (ys : List Str),
      extractLoop b (xs ++ ys)
        = extractLoop b xs ++ extractLoop (extractState b xs) ys := by
  intro xs
  induction xs with
  | nil => intro b ys; rfl
  | cons l xs ih =>
    intro b ys
    cases hs : extractStep b l with
    | mk b2 o =>
      rw [List.cons_append, extractState_cons, hs]
      cases o with
      | some t =>
        rw [extractLoop_cons_some _ hs, extractLoop_cons_some _ hs, ih b2 ys,
          List.cons_append]
      | none =>
        rw [extractLoop_cons_none _ hs, extractLoop_cons_none _ hs, ih b2 ys]

/-- Content-level splitting of extraction at a newline. -/
theorem extract_content_split (b : Bool) (A B : Str) :
    extractLoop b (splitLines (A ++ (ofString "\n" ++ B)))
      = extractLoop b (splitLines A)
        ++ extractLoop (extractState b (splitLines A)) (splitLines B) := by
  rw [splitLines_seg]
  exact extractLoop_append _ b _

/-- A leading newline resets the scan to the `false` state. -/
theorem extract_nl_step (b : Bool) (y : Str) :
    extractLoop b (splitLines (ofString "\n" ++ y))
      = extractLoop false (splitLines y) := by
  have h1 : splitLines (ofString "\n" ++ y) = [] :: splitLines y := rfl
  rw [h1]
  exact extractLoop_cons_none _ rfl

/-- A region whose lines neither emit nor leave list context open is
skipped by the scan. -/
theorem extract_dead_region (A B : Str)
    (h1 : extractLoop false (splitLines A) = [])
    (h2 : extractState false (splitLines A) = false) :
    extractLoop false (splitLines (A ++ (ofString "\n" ++ B)))
      = extractLoop false (splitLines B) := by
  rw [extract_content_split, h1, h2]
  rfl

/-- The heading line `# <title> - Eisenhower Matrix` emits nothing and
closes list context, whatever the (newline-free) title. -/
theorem extract_title_region (x B : Str) (hx : ∀ c ∈ x, c ≠ '\n') :
    extractLoop false (splitLines (ofString "# " ++
        (x ++ (ofString " - Eisenhower Matrix" ++ (ofString "\n" ++ B)))))
      = extractLoop false (splitLines B) := by
  have h0 : splitLines (ofString " - Eisenhower Matrix" ++ (ofString "\n" ++ B))
      = ofString " - Eisenhower Matrix" :: splitLines B := by
    rw [splitLines_seg, splitLines_noNl (by decide)]
    rfl
  rw [splitLines_noNl_front (by decide), splitLines_noNl_front hx, h0]
  simp only [List.headI, List.tail_cons]
  exact extractLoop_cons_none _ rfl

/-- Quadrant markup always starts with `<`. -/
theorem createTaskList_head (ts : List Str) (msg : Str) :
    ∃ z, createTaskList ts msg = '<' :: z := by
  cases ts with
  | nil =>
    exact ⟨ofString "p class=\"empty-message\">" ++ msg ++ ofString "</p>", rfl⟩
  | cons t ts2 =>
    refine ⟨(ofString "ul>" ++
      ((t :: ts2).map (fun task => ofString "<li>- [ ] " ++ task ++ ofString "</li>")).flatten)
      ++ ofString "</ul>", ?_⟩
    unfold createTaskList
    rw [if_neg (by simp)]
    rfl

/-- An indented quadrant-markup line emits nothing and closes list
context. -/
theorem extract_quad_region (Q B : Str) (hQ : ∃ z, Q = '<' :: z)
    (hn : ∀ c ∈ Q, c ≠ '\n') :
    extractLoop false (splitLines (ofString "      " ++ (Q ++ (ofString "\n" ++ B))))
      = extractLoop false (splitLines B) := by
  obtain ⟨z, rfl⟩ := hQ
  have h0 : splitLines (('<' :: z) ++ (ofString "\n" ++ B))
      = ('<' :: z) :: splitLines B := by
    rw [splitLines_seg, splitLines_noNl hn]
    rfl
  rw [splitLines_noNl_front (by decide), h0]
  simp only [List.headI, List.tail_cons]
  exact extractLoop_cons_none _ rfl

/-- The backlog list renders as one checklist line per entry. -/
theorem splitLines_backlogSection :
    ∀ es : List Str, (∀ e ∈ es, ∀ c ∈ e, c ≠ '\n') → es ≠ [] →
      splitLines (backlogSection es)
        = es.map (fun e => ofString "- [ ] " ++ e) := by
  intro es
  induction es with
  | nil => intro _ h; exact absurd rfl h
  | cons e rest ih =>
    intro hn _
    cases rest with
    | nil =>
      show splitLines (ofString "- [ ] " ++ e) = [ofString "- [ ] " ++ e]
      apply splitLines_noNl
      intro c hc
      rcases List.mem_append.1 hc with h1 | h1
      · exact (by decide : ∀ d ∈ ofString "- [ ] ", d ≠ '\n') c h1
      · exact hn e (List.mem_cons_self _ _) c h1
    | cons e2 rest2 =>
      have hexp : backlogSection (e :: e2 :: rest2)
          = (ofString "- [ ] " ++ e) ++
            (ofString "\n" ++ backlogSection (e2 :: rest2)) := by
        simp [backlogSection, joinSep, List.append_assoc]
      rw [hexp, splitLines_seg,
        splitLines_noNl (fun c hc => by
          rcases List.mem_append.1 hc with h1 | h1
          · exact (by decide : ∀ d ∈ ofString "- [ ] ", d ≠ '\n') c h1
          · exact hn e (List.mem_cons_self _ _) c h1),
        ih (fun x hx => hn x (List.mem_cons_of_mem _ hx)) (by simp)]
      rfl

/-- A rendered backlog line parses back as a zero-indent unchecked
checklist line when its entry is nonempty and line-terminator-free. -/
theorem parseTask_backlog_line (d : Char) (e2 : Str)
    (hlt : ∀ c ∈ d :: e2, isLineTerm c = false) :
    parseTask (ofString "- [ ] " ++ (d :: e2)) = some (0, false, d :: e2) := by
  have hall : (d :: e2).all (fun c => !isLineTerm c) = true := by
    rw [List.all_eq_true]
    intro c hc
    rw [hlt c hc]
    rfl
  have hred : parseTask (ofString "- [ ] " ++ (d :: e2))
      = if (d :: e2).all (fun c => !isLineTerm c) then some (0, false, d :: e2)
        else none := rfl
  rw [hred, if_pos hall]

/-- Scanning the backlog lines yields exactly the entries, in order. -/
theorem extract_backlog_lines :
    ∀ (es : List Str) (b : Bool),
      (∀ e ∈ es, e ≠ [] ∧ trim e = e ∧ ∀ c ∈ e, isLineTerm c = false) →
      extractLoop b (es.map (fun e => ofString "- [ ] " ++ e)) = es := by
  intro es
  induction es with
  | nil => intro b _; rfl
  | cons e rest ih =>
    intro b h
    obtain ⟨hne, htrim, hlt⟩ := h e (List.mem_cons_self _ _)
    match e, hne, hlt with
    | d :: e2, _, hlt =>
      have hp : parseTask (ofString "- [ ] " ++ (d :: e2))
          = some (0, false, d :: e2) := parseTask_backlog_line d e2 hlt
      rw [List.map_cons, extractLoop_cons_some _ (extractStep_zero hp), htrim,
        ih true (fun x hx => h x (List.mem_cons_of_mem _ hx))]

/-- Scanning the whole backlog section yields exactly the entries. -/
theorem extract_backlog_region (es : List Str)
    (hn : ∀ e ∈ es, ∀ c ∈ e, c ≠ '\n')
    (he : ∀ e ∈ es, e ≠ [] ∧ trim e = e ∧ ∀ c ∈ e, isLineTerm c = false) :
    extractLoop false (splitLines (backlogSection es)) = es := by
  cases es with
  | nil => rfl
  | cons e rest =>
    rw [splitLines_backlogSection _ hn (by simp)]
    exact extract_backlog_lines _ false he

end RoundTripLemmas

/-- C9: for newline-free tasks and title (read as free of the JS line
terminators LF, CR, LS, PS, which the checklist regex `(.+)$` cannot
match), with every Backlog-classified task having nonempty cleaned text,
re-running extraction on the rendered block returns exactly the Backlog
bucket's display entries in order: the Backlog lines are zero-indent
unchecked checklist lines and survive a second pass, while quadrant tasks
sit inside HTML list markup on indented lines and are not
re-extractable. -/
theorem roundtrip_extraction :
    ∀ (tasks : List Str) (title : Str),
      ('\n' : Char) ∉ title →
      (∀ t ∈ tasks, ∀ c ∈ t, isLineTerm c = false) →
      (∀ t ∈ tasks, bucketOf t = Bucket.backlog → cleanTask t ≠ []) →
      extractTasksFromContent (createEisenhowerMatrixContent tasks title)
        = bucketList Bucket.backlog tasks := by
  intro tasks title hTitle hTasksLT hNE
  have hTasks : ∀ t ∈ tasks, ('\n' : Char) ∉ t := by
    intro t ht hmem
    exact absurd (hTasksLT t ht '\n' hmem) (by decide)
  have hentNl : ∀ (b : Bucket), ∀ e ∈ bucketList b tasks, ('\n' : Char) ∉ e := by
    intro b e he hcE
    obtain ⟨t, htm, _, rfl⟩ := mem_bucketList he
    exact hTasks t htm (mem_cleanTask t hcE)
  have hq : ∀ (b : Bucket) (msg : Str), ('\n' : Char) ∉ msg →
      ∀ c ∈ createTaskList (bucketList b tasks) msg, c ≠ '\n' := by
    intro b msg hmsg c hc hc2
    subst hc2
    exact not_mem_createTaskList _ _ (by decide) (by decide) (by decide) (by decide)
      (by decide) (by decide) hmsg (hentNl b) hc
  have hentNE : ∀ e ∈ bucketList Bucket.backlog tasks,
      e ≠ [] ∧ trim e = e ∧ ∀ c ∈ e, isLineTerm c = false := by
    intro e he
    obtain ⟨t, htm, hbt, rfl⟩ := mem_bucketList he
    refine ⟨hNE t htm hbt, trim_idem (stripTags t), ?_⟩
    intro c hc
    exact hTasksLT t htm c (mem_cleanTask t hc)
  have hfin : extractLoop false (splitLines (ofString "<div class=\"ematrix-instructions\">\n  <h3>Task Organization</h3>\n  <p>Use the following tags to organize tasks in the matrix:</p>\n  <ul>\n    <li><strong>#urgent #important</strong> - Do First quadrant</li>\n    <li><strong>#important</strong> - Schedule quadrant</li>\n    <li><strong>#urgent</strong> - Delegate quadrant</li>\n    <li><strong>#later</strong> - Eliminate quadrant</li>\n    <li>No tags - Tasks appear in Backlog</li>\n  </ul>\n</div>\n\n<!-- #ematrix -->")) = [] := by
    decide
  have hTitle2 : ∀ c ∈ title, c ≠ '\n' := fun c hc hc2 => hTitle (hc2 ▸ hc)
  have hentNl2 : ∀ e ∈ bucketList Bucket.backlog tasks, ∀ c ∈ e, c ≠ '\n' :=
    fun e he c hc hc2 => hentNl Bucket.backlog e he (hc2 ▸ hc)
  unfold extractTasksFromContent createEisenhowerMatrixContent
  simp only [List.append_assoc]
  rw [extract_title_region _ _ hTitle2,
    extract_dead_region _ _ (by decide) (by decide),
    extract_quad_region _ _ (createTaskList_head _ _) (hq _ _ (by decide)),
    extract_dead_region _ _ (by decide) (by decide),
    extract_quad_region _ _ (createTaskList_head _ _) (hq _ _ (by decide)),
    extract_dead_region _ _ (by decide) (by decide),
    extract_quad_region _ _ (createTaskList_head _ _) (hq _ _ (by decide)),
    extract_dead_region _ _ (by decide) (by decide),
    extract_quad_region _ _ (createTaskList_head _ _) (hq _ _ (by decide)),
    extract_dead_region _ _ (by decide) (by decide),
    extract_nl_step,
    extract_content_split,
    extract_backlog_region _ hentNl2 hentNE,
    extract_nl_step,
    hfin, List.append_nil]

/-- Witness for C9 at a concrete mixed task list. -/
theorem roundtrip_extraction_witness :
    extractTasksFromContent
      (createEisenhowerMatrixContent
        [ofString "A #urgent #important", ofString "E #foo", ofString "F bar"]
        (ofString "T"))
      = bucketList Bucket.backlog
        [ofString "A #urgent #important", ofString "E #foo", ofString "F bar"] :=
  roundtrip_extraction
    [ofString "A #urgent #important", ofString "E #foo", ofString "F bar"]
    (ofString "T") (by decide) (by decide) (by decide)


end EMatrix
